import Mathlib

/-!
Shallow embedding of the SponsorSpotlight segment extraction and merge engine
(`SegmentFilter.findRawSegments`, `SegmentFilter.mergeAndFilterSegments` and the
inline copy in `setupSegmentFiltering` of `frontend/static/js/dashboard.js`).

JavaScript numbers are modelled as rationals (`ℚ`); frame indices as naturals.
A raw/merged segment `{ logo, start, end }` becomes the `Segment` structure
(`end` is a Lean keyword, so the field is called `stop`).
-/

namespace SponsorSpotlight

/-- A segment `{ logo, start, end }` as pushed by `findRawSegments`.
The JS field `end` is named `stop` here. -/
structure Segment where
  logo : String
  start : ℕ
  stop : ℕ
deriving DecidableEq

/-- Per-frame qualification test, embedding
`isPresent = presentSet.size === 0 ? true : presentSet.has(f + 1)`,
`covOk = (covSeries[f] || 0) >= minCov`, `promOk = (promSeries[f] || 0) >= minProm`,
`isPresent && covOk && promOk`.  A `Set` built from a list is empty iff the list
is, and out-of-range indexing (`undefined || 0`) is `List.getD _ 0`. -/
def qualifies (presentFrames : List ℕ) (covSeries promSeries : List ℚ)
    (minCov minProm : ℚ) (f : ℕ) : Bool :=
  let isPresent := if presentFrames.isEmpty then true else presentFrames.contains (f + 1)
  isPresent && decide (covSeries.getD f 0 ≥ minCov) && decide (promSeries.getD f 0 ≥ minProm)

/-- The frame loop of `findRawSegments`: frames `f, f+1, …, f+n-1` are scanned with
`st` the current `start` variable (`none` = JS `null`); on a non-qualifying frame a
pending run is flushed as `(start, f - 1)`, and after the loop a pending run is
flushed as `(start, maxLen - 1)` (here `n = 0` and `f = maxLen`). -/
def scanRun (qual : ℕ → Bool) : ℕ → ℕ → Option ℕ → List (ℕ × ℕ)
  | _, 0, none => []
  | f, 0, some s => [(s, f - 1)]
  | f, n + 1, st =>
    if qual f then
      scanRun qual (f + 1) n (some (st.getD f))
    else
      match st with
      | some s => (s, f - 1) :: scanRun qual (f + 1) n none
      | none => scanRun qual (f + 1) n none

/-- The body of `findRawSegments` for one logo: scan frames `0 … maxLen-1`
(`maxLen = Math.max(covSeries.length, promSeries.length)`) and emit
`{ logo, start, end }` records. -/
def findRawSegmentsFor (timelineStats : String → List ℕ) (covData promData : String → List ℚ)
    (minCov minProm : ℚ) (logo : String) : List Segment :=
  let covSeries := covData logo
  let promSeries := promData logo
  let maxLen := max covSeries.length promSeries.length
  (scanRun (qualifies (timelineStats logo) covSeries promSeries minCov minProm) 0 maxLen none).map
    (fun p => ⟨logo, p.1, p.2⟩)

/-- `findRawSegments`: the per-logo scans, concatenated in logo order
(the JS pushes into one shared `rawSegments` array). -/
def findRawSegments (logos : List String) (timelineStats : String → List ℕ)
    (covData promData : String → List ℚ) (minCov minProm : ℚ) : List Segment :=
  logos.flatMap (findRawSegmentsFor timelineStats covData promData minCov minProm)

/-- The merge test of `mergeAndFilterSegments`:
`seg.logo === last.logo && framesToSec(Math.max(0, seg.start - (last.end + 1))) <= mergeGapSec`. -/
def mergeCond (fps mergeGapSec : ℚ) (last seg : Segment) : Bool :=
  (seg.logo == last.logo) &&
    decide (max 0 ((seg.start : ℚ) - ((last.stop : ℚ) + 1)) / fps ≤ mergeGapSec)

/-- One step of the accumulator walk of `mergeAndFilterSegments`.  The JS array
`merged` is kept in reverse (its `last` element is the head).  On a merge the JS
runs `if (seg.end > last.end) last.end = seg.end`, i.e. `last.end` becomes
`max last.end seg.end`; otherwise `seg` is pushed. -/
def mergeAcc (fps mergeGapSec : ℚ) (acc : List Segment) (seg : Segment) : List Segment :=
  match acc with
  | [] => [seg]
  | last :: rest =>
    if mergeCond fps mergeGapSec last seg then
      { last with stop := max last.stop seg.stop } :: rest
    else
      seg :: last :: rest

/-- The merge phase of `mergeAndFilterSegments`: stable sort by `start` ascending
(`rawSegments.sort((a,b) => a.start - b.start)`; JS `Array.prototype.sort` is
stable) followed by the accumulator walk. -/
def mergeSegments (fps mergeGapSec : ℚ) (raw : List Segment) : List Segment :=
  ((raw.mergeSort (fun a b => a.start ≤ b.start)).foldl (mergeAcc fps mergeGapSec) []).reverse

/-- `mergeAndFilterSegments`: merge, then
`merged.filter(seg => framesToSec(seg.end - seg.start + 1) >= minDurationSec)`. -/
def mergeAndFilterSegments (fps mergeGapSec minDurationSec : ℚ) (raw : List Segment) :
    List Segment :=
  (mergeSegments fps mergeGapSec raw).filter
    (fun seg => decide (((seg.stop : ℚ) - (seg.start : ℚ) + 1) / fps ≥ minDurationSec))

/-- The full click-handler pipeline of `setupSegmentFiltering`:
raw extraction over the selected logos followed by merge-and-filter. -/
def segmentFilterResults (logos : List String) (timelineStats : String → List ℕ)
    (covData promData : String → List ℚ)
    (minCov minProm fps mergeGapSec minDurationSec : ℚ) : List Segment :=
  mergeAndFilterSegments fps mergeGapSec minDurationSec
    (findRawSegments logos timelineStats covData promData minCov minProm)

/-- A JavaScript value in the position `this.videoMetadata.fps`: absent
(`undefined`), present but not parseable as a number, or a number. -/
inductive JSValue where
  | missing : JSValue
  | nonNumeric : JSValue
  | num : ℚ → JSValue

/-- JS `Number(x)`: `undefined` and non-numeric strings give `NaN` (modelled as
`none`); a numeric value passes through. -/
def toNumber : JSValue → Option ℚ
  | .missing => none
  | .nonNumeric => none
  | .num q => some q

/-- `const fps = Number(this.videoMetadata.fps) || 25`: `NaN` and `0` are falsy,
every other number is truthy and passes through. -/
def effectiveFps (v : JSValue) : ℚ :=
  match toNumber v with
  | none => 25
  | some q => if q = 0 then 25 else q

/-- `const toTime = (frame) => (frame / fps)` before formatting. -/
def toTime (fps : ℚ) (frame : ℕ) : ℚ :=
  (frame : ℚ) / fps

/-- `.toFixed(2)` on a non-negative exact time: round to hundredths and print
with two decimals. -/
def toFixed2 (q : ℚ) : String :=
  let n : ℕ := (⌊q * 100 + 1 / 2⌋).toNat
  toString (n / 100) ++ "." ++ toString (n / 10 % 10) ++ toString (n % 10)

/-- Spec-side notion (from the spec's words, for comparison with the code):
`[s, e]` is a maximal run of qualifying frames inside the scanned window
`0 … maxLen-1`. -/
def IsMaximalRun (qual : ℕ → Bool) (maxLen s e : ℕ) : Prop :=
  s ≤ e ∧ e < maxLen ∧ (∀ i ∈ Finset.Icc s e, qual i = true) ∧
    (s = 0 ∨ qual (s - 1) = false) ∧ (e + 1 = maxLen ∨ qual (e + 1) = false)

instance (qual : ℕ → Bool) (maxLen s e : ℕ) : Decidable (IsMaximalRun qual maxLen s e) := by
  unfold IsMaximalRun
  infer_instance

/-- All frames of the closed interval `[s, e]` qualify (proof-side shorthand). -/
def allQual (qual : ℕ → Bool) (s e : ℕ) : Prop :=
  ∀ i, s ≤ i → i ≤ e → qual i = true

/-- Coverage series of spec Scenario A/B. -/
def scenarioCoverage : List ℚ :=
  [5, 5, 5, 0, 0, 5, 5, 5, 5, 5]

unseal List.merge List.mergeSort

theorem allQual_empty {qual : ℕ → Bool} {s e : ℕ} (h : e < s) : allQual qual s e :=
  fun i hi he => absurd (le_trans hi he) (by omega)

theorem allQual_of_succ {qual : ℕ → Bool} {s e : ℕ} (h : allQual qual s e) :
    allQual qual (s + 1) e :=
  fun i hi he => h i (by omega) he

theorem allQual_succ_left {qual : ℕ → Bool} {s e : ℕ} (h : qual s = true)
    (h2 : allQual qual (s + 1) e) : allQual qual s e := by
  intro i hi he
  rcases Nat.eq_or_lt_of_le hi with rfl | hlt
  · exact h
  · exact h2 i hlt he

/-- C6: the per-frame qualification predicate: an empty presence set counts as
"always present", a non-empty one tests membership of `frame + 1`, and both are
conjoined with the coverage and prominence threshold checks. -/
theorem qualifies_presence_spec (presentFrames : List ℕ) (covSeries promSeries : List ℚ)
    (minCov minProm : ℚ) (f : ℕ) :
    qualifies presentFrames covSeries promSeries minCov minProm f = true ↔
      ((presentFrames = [] ∨ (f + 1) ∈ presentFrames) ∧
        minCov ≤ covSeries.getD f 0 ∧ minProm ≤ promSeries.getD f 0) := by
  by_cases hps : presentFrames = []
  · subst hps
    simp [qualifies, ge_iff_le, and_assoc]
  · simp [qualifies, hps, List.isEmpty_iff, ge_iff_le, and_assoc]

/-- C7 counterexample: a negative numeric fps is passed through by
`Number(this.videoMetadata.fps) || 25`, so the effective fps can be negative. -/
theorem effectiveFps_neg_counterexample :
    effectiveFps (JSValue.num (-3)) = -3 ∧ effectiveFps (JSValue.num (-3)) < 0 := by
  norm_num [effectiveFps, toNumber]

/-- C7 (amended): the fps defaults to 25 whenever the supplied value is absent,
non-numeric, or zero — so the effective fps is never zero — but any other
numeric value (including a negative one) is passed through unchanged. -/
theorem effectiveFps_spec :
    (∀ v, toNumber v = none → effectiveFps v = 25) ∧
      effectiveFps (JSValue.num 0) = 25 ∧
      (∀ v, effectiveFps v ≠ 0) ∧
      (∀ q : ℚ, q ≠ 0 → effectiveFps (JSValue.num q) = q) := by
  refine ⟨?_, ?_, ?_, ?_⟩
  · intro v hv
    simp [effectiveFps, hv]
  · simp [effectiveFps, toNumber]
  · intro v
    cases v with
    | missing => simp [effectiveFps, toNumber]
    | nonNumeric => simp [effectiveFps, toNumber]
    | num q =>
      by_cases hq : q = 0 <;> simp [effectiveFps, toNumber, hq]
  · intro q hq
    simp [effectiveFps, toNumber, hq]

theorem effectiveFps_spec_witness :
    (toNumber JSValue.missing = none ∧ effectiveFps JSValue.missing = 25) ∧
      effectiveFps (JSValue.num 0) = 25 ∧
      effectiveFps (JSValue.num 7) ≠ 0 ∧
      ((7 : ℚ) ≠ 0 ∧ effectiveFps (JSValue.num 7) = 7) :=
  ⟨⟨rfl, effectiveFps_spec.1 JSValue.missing rfl⟩, effectiveFps_spec.2.1,
    effectiveFps_spec.2.2.1 (JSValue.num 7),
    ⟨by norm_num, effectiveFps_spec.2.2.2 7 (by norm_num)⟩⟩

/-- C8: a frame index beyond the length of the coverage array — or, separately,
beyond the length of the prominence array — reads that array's value as 0
(`covSeries[f] || 0`), with no condition on the other array, so frames of the
scanned window that lie past one short array are tested against 0 for that
array and the scan never faults on sparse trailing data. -/
theorem qualifies_short_array (presentFrames : List ℕ) (covSeries promSeries : List ℚ)
    (minCov minProm : ℚ) (f : ℕ) :
    (covSeries.length ≤ f → covSeries.getD f 0 = 0 ∧
      qualifies presentFrames covSeries promSeries minCov minProm f =
        ((if presentFrames.isEmpty then true else presentFrames.contains (f + 1)) &&
          decide ((0 : ℚ) ≥ minCov) && decide (promSeries.getD f 0 ≥ minProm))) ∧
    (promSeries.length ≤ f → promSeries.getD f 0 = 0 ∧
      qualifies presentFrames covSeries promSeries minCov minProm f =
        ((if presentFrames.isEmpty then true else presentFrames.contains (f + 1)) &&
          decide (covSeries.getD f 0 ≥ minCov) && decide ((0 : ℚ) ≥ minProm))) := by
  constructor
  · intro hcov
    have h1 : covSeries.getD f 0 = 0 := List.getD_eq_default _ _ hcov
    refine ⟨h1, ?_⟩
    simp only [qualifies]
    rw [h1]
  · intro hprom
    have h2 : promSeries.getD f 0 = 0 := List.getD_eq_default _ _ hprom
    refine ⟨h2, ?_⟩
    simp only [qualifies]
    rw [h2]

theorem qualifies_short_array_witness :
    5 < max scenarioCoverage.length ([] : List ℚ).length ∧
    ([] : List ℚ).length ≤ 5 ∧
    (([] : List ℚ).getD 5 0 = 0 ∧
      qualifies [] scenarioCoverage [] 1 0 5 =
        ((if ([] : List ℕ).isEmpty then true else ([] : List ℕ).contains (5 + 1)) &&
          decide (scenarioCoverage.getD 5 0 ≥ 1) && decide ((0 : ℚ) ≥ 0))) :=
  ⟨by decide, by decide,
    (qualifies_short_array [] scenarioCoverage [] 1 0 5).2 (by decide)⟩

theorem scanRun_mem (qual : ℕ → Bool) :
    ∀ n : ℕ,
      (∀ f s e,
        ((s, e) ∈ scanRun qual f n none ↔
          f ≤ s ∧ s ≤ e ∧ e + 1 ≤ f + n ∧ allQual qual s e ∧
            (s = f ∨ qual (s - 1) = false) ∧ (e + 1 = f + n ∨ qual (e + 1) = false))) ∧
      (∀ f s0, s0 < f → ∀ s e,
        ((s, e) ∈ scanRun qual f n (some s0) ↔
          (s = s0 ∧ f ≤ e + 1 ∧ e + 1 ≤ f + n ∧ allQual qual f e ∧
            (e + 1 = f + n ∨ qual (e + 1) = false)) ∨
          (f < s ∧ s ≤ e ∧ e + 1 ≤ f + n ∧ allQual qual s e ∧
            qual (s - 1) = false ∧ (e + 1 = f + n ∨ qual (e + 1) = false)))) := by
  intro n
  induction n with
  | zero =>
    constructor
    · intro f s e
      simp only [scanRun, List.not_mem_nil, false_iff]
      rintro ⟨h1, h2, h3, -, -, -⟩
      omega
    · intro f s0 hs0 s e
      simp only [scanRun, List.mem_singleton, Prod.mk.injEq]
      constructor
      · rintro ⟨rfl, rfl⟩
        exact Or.inl ⟨rfl, by omega, by omega, allQual_empty (by omega), Or.inl (by omega)⟩
      · rintro (⟨rfl, h1, h2, -, -⟩ | ⟨h1, h2, h3, -, -, -⟩)
        · exact ⟨rfl, by omega⟩
        · omega
  | succ n ih =>
    obtain ⟨ihNone, ihSome⟩ := ih
    have stepNoneT : ∀ f, qual f = true →
        scanRun qual f (n + 1) none = scanRun qual (f + 1) n (some f) := by
      intro f hq
      simp [scanRun, hq]
    have stepNoneF : ∀ f, qual f = false →
        scanRun qual f (n + 1) none = scanRun qual (f + 1) n none := by
      intro f hq
      simp [scanRun, hq]
    have stepSomeT : ∀ f s0, qual f = true →
        scanRun qual f (n + 1) (some s0) = scanRun qual (f + 1) n (some s0) := by
      intro f s0 hq
      simp [scanRun, hq]
    have stepSomeF : ∀ f s0, qual f = false →
        scanRun qual f (n + 1) (some s0) = (s0, f - 1) :: scanRun qual (f + 1) n none := by
      intro f s0 hq
      simp [scanRun, hq]
    constructor
    · intro f s e
      cases hq : qual f with
      | true =>
        rw [stepNoneT f hq, ihSome (f + 1) f (by omega)]
        constructor
        · rintro (⟨hs, h1, h2, h3, h4⟩ | ⟨h1, h2, h3, h4, h5, h6⟩)
          · subst hs
            refine ⟨le_rfl, by omega, by omega, allQual_succ_left hq h3, Or.inl rfl, ?_⟩
            rcases h4 with h4 | h4
            · exact Or.inl (by omega)
            · exact Or.inr h4
          · refine ⟨by omega, h2, by omega, h4, Or.inr h5, ?_⟩
            rcases h6 with h6 | h6
            · exact Or.inl (by omega)
            · exact Or.inr h6
        · rintro ⟨h1, h2, h3, h4, h5, h6⟩
          rcases Nat.eq_or_lt_of_le h1 with hsf | hlt
          · left
            refine ⟨hsf.symm, by omega, by omega, ?_, ?_⟩
            · rw [← hsf] at h4
              exact allQual_of_succ h4
            · rcases h6 with h6 | h6
              · exact Or.inl (by omega)
              · exact Or.inr h6
          · have hsf : qual (s - 1) = false := by
              rcases h5 with h5 | h5
              · omega
              · exact h5
            have hs1 : s ≠ f + 1 := by
              intro hcontra
              have hx : s - 1 = f := by omega
              rw [hx, hq] at hsf
              cases hsf
            refine Or.inr ⟨by omega, h2, by omega, h4, hsf, ?_⟩
            rcases h6 with h6 | h6
            · exact Or.inl (by omega)
            · exact Or.inr h6
      | false =>
        rw [stepNoneF f hq, ihNone (f + 1)]
        constructor
        · rintro ⟨h1, h2, h3, h4, h5, h6⟩
          refine ⟨by omega, h2, by omega, h4, ?_, ?_⟩
          · rcases h5 with h5 | h5
            · right
              have hx : s - 1 = f := by omega
              rw [hx]
              exact hq
            · exact Or.inr h5
          · rcases h6 with h6 | h6
            · exact Or.inl (by omega)
            · exact Or.inr h6
        · rintro ⟨h1, h2, h3, h4, h5, h6⟩
          have hfs : f < s := by
            rcases Nat.eq_or_lt_of_le h1 with hsf | hlt
            · exfalso
              have hqs : qual s = true := h4 s le_rfl h2
              rw [← hsf, hq] at hqs
              cases hqs
            · omega
          refine ⟨by omega, h2, by omega, h4, ?_, ?_⟩
          · rcases h5 with h5 | h5
            · right
              have hx : s - 1 = f := by omega
              rw [hx]
              exact hq
            · exact Or.inr h5
          · rcases h6 with h6 | h6
            · exact Or.inl (by omega)
            · exact Or.inr h6
    · intro f s0 hs0 s e
      cases hq : qual f with
      | true =>
        rw [stepSomeT f s0 hq, ihSome (f + 1) s0 (by omega)]
        constructor
        · rintro (⟨hs, h1, h2, h3, h4⟩ | ⟨h1, h2, h3, h4, h5, h6⟩)
          · refine Or.inl ⟨hs, by omega, by omega, allQual_succ_left hq h3, ?_⟩
            rcases h4 with h4 | h4
            · exact Or.inl (by omega)
            · exact Or.inr h4
          · refine Or.inr ⟨by omega, h2, by omega, h4, h5, ?_⟩
            rcases h6 with h6 | h6
            · exact Or.inl (by omega)
            · exact Or.inr h6
        · rintro (⟨hs, h1, h2, h3, h4⟩ | ⟨h1, h2, h3, h4, h5, h6⟩)
          · have he1 : f + 1 ≤ e + 1 := by
              by_contra hcontra
              have hef : e + 1 = f := by omega
              rcases h4 with h4 | h4
              · omega
              · rw [hef, hq] at h4
                cases h4
            refine Or.inl ⟨hs, he1, by omega, allQual_of_succ h3, ?_⟩
            rcases h4 with h4 | h4
            · exact Or.inl (by omega)
            · exact Or.inr h4
          · have hs1 : s ≠ f + 1 := by
              intro hcontra
              have hx : s - 1 = f := by omega
              rw [hx, hq] at h5
              cases h5
            refine Or.inr ⟨by omega, h2, by omega, h4, h5, ?_⟩
            rcases h6 with h6 | h6
            · exact Or.inl (by omega)
            · exact Or.inr h6
      | false =>
        rw [stepSomeF f s0 hq]
        simp only [List.mem_cons, Prod.mk.injEq]
        rw [ihNone (f + 1)]
        constructor
        · rintro (⟨hs, he⟩ | ⟨h1, h2, h3, h4, h5, h6⟩)
          · refine Or.inl ⟨hs, by omega, by omega, allQual_empty (by omega), ?_⟩
            right
            have hx : e + 1 = f := by omega
            rw [hx]
            exact hq
          · have hsf : qual (s - 1) = false := by
              rcases h5 with h5 | h5
              · have hx : s - 1 = f := by omega
                rw [hx]
                exact hq
              · exact h5
            refine Or.inr ⟨by omega, h2, by omega, h4, hsf, ?_⟩
            rcases h6 with h6 | h6
            · exact Or.inl (by omega)
            · exact Or.inr h6
        · rintro (⟨hs, h1, h2, h3, h4⟩ | ⟨h1, h2, h3, h4, h5, h6⟩)
          · left
            have hef : e + 1 = f := by
              by_contra hcontra
              have hfe : f ≤ e := by omega
              have hqf : qual f = true := h3 f le_rfl hfe
              rw [hq] at hqf
              cases hqf
            exact ⟨hs, by omega⟩
          · right
            refine ⟨by omega, h2, by omega, h4, Or.inr h5, ?_⟩
            rcases h6 with h6 | h6
            · exact Or.inl (by omega)
            · exact Or.inr h6

theorem scanRun_none_step_true {qual : ℕ → Bool} {f n : ℕ} (hq : qual f = true) :
    scanRun qual f (n + 1) none = scanRun qual (f + 1) n (some f) := by
  simp [scanRun, hq]

theorem scanRun_none_step_false {qual : ℕ → Bool} {f n : ℕ} (hq : qual f = false) :
    scanRun qual f (n + 1) none = scanRun qual (f + 1) n none := by
  simp [scanRun, hq]

theorem scanRun_some_step_true {qual : ℕ → Bool} {f n s0 : ℕ} (hq : qual f = true) :
    scanRun qual f (n + 1) (some s0) = scanRun qual (f + 1) n (some s0) := by
  simp [scanRun, hq]

theorem scanRun_some_step_false {qual : ℕ → Bool} {f n s0 : ℕ} (hq : qual f = false) :
    scanRun qual f (n + 1) (some s0) = (s0, f - 1) :: scanRun qual (f + 1) n none := by
  simp [scanRun, hq]

theorem scanRun_pairwise (qual : ℕ → Bool) :
    ∀ n : ℕ,
      (∀ f, (scanRun qual f n none).Pairwise (fun a b => a.1 < b.1)) ∧
      (∀ f s0, s0 < f → (scanRun qual f n (some s0)).Pairwise (fun a b => a.1 < b.1)) := by
  intro n
  induction n with
  | zero =>
    constructor
    · intro f
      simp [scanRun]
    · intro f s0 _
      simp [scanRun]
  | succ n ih =>
    obtain ⟨ihN, ihS⟩ := ih
    constructor
    · intro f
      cases hq : qual f with
      | true =>
        rw [scanRun_none_step_true hq]
        exact ihS (f + 1) f (by omega)
      | false =>
        rw [scanRun_none_step_false hq]
        exact ihN (f + 1)
    · intro f s0 hs0
      cases hq : qual f with
      | true =>
        rw [scanRun_some_step_true hq]
        exact ihS (f + 1) s0 (by omega)
      | false =>
        rw [scanRun_some_step_false hq]
        refine List.pairwise_cons.mpr ⟨?_, ihN (f + 1)⟩
        intro b hb
        have hmem : (b.1, b.2) ∈ scanRun qual (f + 1) n none := by
          rw [Prod.mk.eta]
          exact hb
        have := ((scanRun_mem qual n).1 (f + 1) b.1 b.2).mp hmem
        have hb1 : f + 1 ≤ b.1 := this.1
        show s0 < b.1
        omega

theorem findRawSegmentsFor_mem (timelineStats : String → List ℕ)
    (covData promData : String → List ℚ) (minCov minProm : ℚ) (logo : String) (seg : Segment) :
    seg ∈ findRawSegmentsFor timelineStats covData promData minCov minProm logo ↔
      seg.logo = logo ∧
        IsMaximalRun
          (qualifies (timelineStats logo) (covData logo) (promData logo) minCov minProm)
          (max (covData logo).length (promData logo).length) seg.start seg.stop := by
  unfold findRawSegmentsFor
  simp only [List.mem_map]
  constructor
  · rintro ⟨p, hp, rfl⟩
    dsimp only
    have hp' : (p.1, p.2) ∈ scanRun
        (qualifies (timelineStats logo) (covData logo) (promData logo) minCov minProm) 0
        (max (covData logo).length (promData logo).length) none := by
      rw [Prod.mk.eta]
      exact hp
    obtain ⟨h0, h1, h2, h3, h4, h5⟩ :=
      ((scanRun_mem _ _).1 0 p.1 p.2).mp hp'
    refine ⟨rfl, h1, by omega, ?_, h4, ?_⟩
    · intro i hi
      rw [Finset.mem_Icc] at hi
      exact h3 i hi.1 hi.2
    · rcases h5 with h5 | h5
      · exact Or.inl (by omega)
      · exact Or.inr h5
  · rintro ⟨hlogo, h1, h2, h3, h4, h5⟩
    refine ⟨(seg.start, seg.stop), ?_, ?_⟩
    · rw [(scanRun_mem _ _).1 0 seg.start seg.stop]
      refine ⟨by omega, h1, by omega, ?_, h4, ?_⟩
      · intro i hi he
        exact h3 i (Finset.mem_Icc.mpr ⟨hi, he⟩)
      · rcases h5 with h5 | h5
        · exact Or.inl (by omega)
        · exact Or.inr h5
    · obtain ⟨l, a, b⟩ := seg
      simp only at hlogo
      rw [hlogo]

/-- C2: for every brand, the raw-segment extractor emits exactly one segment per
maximal run of qualifying frames in the scanned window `0 … maxLen-1` and
nothing else (membership characterization plus strictly increasing starts, so
each run appears exactly once); `maxLen = 0` yields no segments, and a maximal
single-frame run `[s, s]` yields a segment with `start = stop = s`. -/
theorem findRawSegments_exactly_maximal_runs (timelineStats : String → List ℕ)
    (covData promData : String → List ℚ) (minCov minProm : ℚ) (logo : String) :
    (∀ seg : Segment,
      seg ∈ findRawSegmentsFor timelineStats covData promData minCov minProm logo ↔
        seg.logo = logo ∧
          IsMaximalRun
            (qualifies (timelineStats logo) (covData logo) (promData logo) minCov minProm)
            (max (covData logo).length (promData logo).length) seg.start seg.stop) ∧
    (findRawSegmentsFor timelineStats covData promData minCov minProm logo).Pairwise
      (fun a b => a.start < b.start) ∧
    (max (covData logo).length (promData logo).length = 0 →
      findRawSegmentsFor timelineStats covData promData minCov minProm logo = []) ∧
    (∀ s : ℕ,
      IsMaximalRun
        (qualifies (timelineStats logo) (covData logo) (promData logo) minCov minProm)
        (max (covData logo).length (promData logo).length) s s →
      (⟨logo, s, s⟩ : Segment) ∈
        findRawSegmentsFor timelineStats covData promData minCov minProm logo) := by
  refine ⟨findRawSegmentsFor_mem timelineStats covData promData minCov minProm logo, ?_, ?_, ?_⟩
  · unfold findRawSegmentsFor
    rw [List.pairwise_map]
    exact (scanRun_pairwise _ _).1 0
  · intro h
    simp only [findRawSegmentsFor]
    rw [h]
    rfl
  · intro s hs
    exact (findRawSegmentsFor_mem timelineStats covData promData minCov minProm logo
      ⟨logo, s, s⟩).mpr ⟨rfl, hs⟩

theorem findRawSegments_exactly_maximal_runs_witness :
    (⟨"a", 0, 2⟩ : Segment) ∈
      findRawSegmentsFor (fun _ => []) (fun _ => scenarioCoverage) (fun _ => []) 1 0 "a" := by
  have h := findRawSegments_exactly_maximal_runs (fun _ => [])
    (fun _ => scenarioCoverage) (fun _ => []) 1 0 "a"
  exact (h.1 ⟨"a", 0, 2⟩).mpr ⟨rfl, by decide⟩

theorem mergeCond_congr (fps mergeGapSec : ℚ) (a b b' : Segment) (hl : b'.logo = b.logo)
    (hs : b'.start = b.start) :
    mergeCond fps mergeGapSec a b' = mergeCond fps mergeGapSec a b := by
  simp [mergeCond, hl, hs]

theorem mergeCond_logo_eq {fps mergeGapSec : ℚ} {a b : Segment}
    (h : mergeCond fps mergeGapSec a b = true) : b.logo = a.logo := by
  simp only [mergeCond, Bool.and_eq_true, beq_iff_eq] at h
  exact h.1

theorem foldl_mergeAcc_pred (fps mergeGapSec : ℚ) (Q : Segment → Prop)
    (hmerge : ∀ a b : Segment, Q a → Q b → b.logo = a.logo →
      Q { a with stop := max a.stop b.stop }) :
    ∀ (l acc : List Segment), (∀ x ∈ acc, Q x) → (∀ x ∈ l, Q x) →
      ∀ x ∈ l.foldl (mergeAcc fps mergeGapSec) acc, Q x := by
  intro l
  induction l with
  | nil =>
    intro acc hacc _ x hx
    exact hacc x hx
  | cons seg l ihl =>
    intro acc hacc hl x hx
    simp only [List.foldl_cons] at hx
    have hseg : Q seg := hl seg (List.mem_cons_self _ _)
    refine ihl (mergeAcc fps mergeGapSec acc seg) ?_
      (fun y hy => hl y (List.mem_cons_of_mem _ hy)) x hx
    intro y hy
    cases acc with
    | nil =>
      simp only [mergeAcc, List.mem_singleton] at hy
      rw [hy]
      exact hseg
    | cons last rest =>
      simp only [mergeAcc] at hy
      by_cases hc : mergeCond fps mergeGapSec last seg = true
      · rw [if_pos hc] at hy
        rcases List.mem_cons.mp hy with hy | hy
        · rw [hy]
          exact hmerge last seg (hacc last (List.mem_cons_self _ _)) hseg
            (mergeCond_logo_eq hc)
        · exact hacc y (List.mem_cons_of_mem _ hy)
      · rw [if_neg hc] at hy
        rcases List.mem_cons.mp hy with hy | hy
        · rw [hy]
          exact hseg
        · exact hacc y hy

theorem foldl_mergeAcc_sorted (fps mergeGapSec : ℚ) :
    ∀ (l acc : List Segment), l.Pairwise (fun a b => a.start ≤ b.start) →
      acc.Pairwise (fun a b => b.start ≤ a.start) →
      (∀ a ∈ acc, ∀ s ∈ l, a.start ≤ s.start) →
      (l.foldl (mergeAcc fps mergeGapSec) acc).Pairwise (fun a b => b.start ≤ a.start) := by
  intro l
  induction l with
  | nil =>
    intro acc _ hacc _
    simpa using hacc
  | cons seg l ihl =>
    intro acc hl hacc hbound
    obtain ⟨hseg_le, hl'⟩ := List.pairwise_cons.mp hl
    simp only [List.foldl_cons]
    apply ihl _ hl'
    · cases acc with
      | nil =>
        simp [mergeAcc]
      | cons last rest =>
        simp only [mergeAcc]
        obtain ⟨hlast, hrest⟩ := List.pairwise_cons.mp hacc
        by_cases hc : mergeCond fps mergeGapSec last seg = true
        · rw [if_pos hc]
          exact List.pairwise_cons.mpr ⟨fun y hy => hlast y hy, hrest⟩
        · rw [if_neg hc]
          refine List.pairwise_cons.mpr ⟨?_, hacc⟩
          intro y hy
          exact hbound y hy seg (List.mem_cons_self _ _)
    · intro a ha s hs
      have hsegs : seg.start ≤ s.start := hseg_le s hs
      cases acc with
      | nil =>
        simp only [mergeAcc, List.mem_singleton] at ha
        rw [ha]
        exact hsegs
      | cons last rest =>
        simp only [mergeAcc] at ha
        by_cases hc : mergeCond fps mergeGapSec last seg = true
        · rw [if_pos hc] at ha
          rcases List.mem_cons.mp ha with ha | ha
          · rw [ha]
            exact le_trans
              (hbound last (List.mem_cons_self _ _) seg (List.mem_cons_self _ _)) hsegs
          · exact le_trans
              (hbound a (List.mem_cons_of_mem _ ha) seg (List.mem_cons_self _ _)) hsegs
        · rw [if_neg hc] at ha
          rcases List.mem_cons.mp ha with ha | ha
          · rw [ha]
            exact hsegs
          · exact le_trans (hbound a ha seg (List.mem_cons_self _ _)) hsegs

theorem foldl_mergeAcc_chain (fps mergeGapSec : ℚ) :
    ∀ (l acc : List Segment),
      acc.Chain' (fun x y => mergeCond fps mergeGapSec y x = false) →
      (l.foldl (mergeAcc fps mergeGapSec) acc).Chain'
        (fun x y => mergeCond fps mergeGapSec y x = false) := by
  intro l
  induction l with
  | nil =>
    intro acc h
    simpa using h
  | cons seg l ihl =>
    intro acc hacc
    simp only [List.foldl_cons]
    apply ihl
    cases acc with
    | nil =>
      simp [mergeAcc]
    | cons last rest =>
      simp only [mergeAcc]
      by_cases hc : mergeCond fps mergeGapSec last seg = true
      · rw [if_pos hc]
        cases rest with
        | nil =>
          simp
        | cons y rest' =>
          obtain ⟨h1, h2⟩ := List.chain'_cons.mp hacc
          refine List.chain'_cons.mpr ⟨?_, h2⟩
          rw [mergeCond_congr fps mergeGapSec y last
            { last with stop := max last.stop seg.stop } rfl rfl]
          exact h1
      · rw [if_neg hc]
        have hcf : mergeCond fps mergeGapSec last seg = false := by
          cases h : mergeCond fps mergeGapSec last seg
          · rfl
          · exact absurd h hc
        exact List.chain'_cons.mpr ⟨hcf, hacc⟩

theorem foldl_mergeAcc_pushes (fps mergeGapSec : ℚ) :
    ∀ (l : List Segment) (prev : Segment) (rest : List Segment),
      (prev :: l).Chain' (fun a b => mergeCond fps mergeGapSec a b = false) →
      l.foldl (mergeAcc fps mergeGapSec) (prev :: rest) = l.reverse ++ prev :: rest := by
  intro l
  induction l with
  | nil =>
    intro prev rest _
    simp
  | cons seg l ihl =>
    intro prev rest hch
    obtain ⟨h1, h2⟩ := List.chain'_cons.mp hch
    simp only [List.foldl_cons]
    have hstep : mergeAcc fps mergeGapSec (prev :: rest) seg = seg :: prev :: rest := by
      simp only [mergeAcc]
      rw [if_neg (by simp [h1])]
    rw [hstep, ihl seg (prev :: rest) h2]
    simp

theorem sortByStart_pairwise (raw : List Segment) :
    (raw.mergeSort (fun a b => a.start ≤ b.start)).Pairwise (fun a b => a.start ≤ b.start) := by
  have h := @List.sorted_mergeSort Segment (fun a b => decide (a.start ≤ b.start))
    (fun a b c h1 h2 => by
      simp only [decide_eq_true_eq] at h1 h2 ⊢
      omega)
    (fun a b => by
      simp only [Bool.or_eq_true, decide_eq_true_eq]
      omega)
    raw
  exact h.imp (fun hab => by simpa using hab)

theorem sortByStart_mem {raw : List Segment} {x : Segment} :
    x ∈ raw.mergeSort (fun a b => a.start ≤ b.start) ↔ x ∈ raw :=
  (List.mergeSort_perm raw _).mem_iff

theorem mergeSegments_sorted (fps mergeGapSec : ℚ) (raw : List Segment) :
    (mergeSegments fps mergeGapSec raw).Pairwise (fun a b => a.start ≤ b.start) := by
  unfold mergeSegments
  rw [List.pairwise_reverse]
  exact foldl_mergeAcc_sorted fps mergeGapSec _ [] (sortByStart_pairwise raw)
    (by simp) (by simp)

theorem mergeSegments_prov (fps mergeGapSec : ℚ) (raw : List Segment) :
    ∀ seg ∈ mergeSegments fps mergeGapSec raw,
      (∃ r ∈ raw, r.logo = seg.logo ∧ r.start = seg.start) ∧
      (∃ r ∈ raw, r.logo = seg.logo ∧ r.stop = seg.stop) := by
  intro seg hseg
  unfold mergeSegments at hseg
  rw [List.mem_reverse] at hseg
  refine foldl_mergeAcc_pred fps mergeGapSec
    (fun x => (∃ r ∈ raw, r.logo = x.logo ∧ r.start = x.start) ∧
      (∃ r ∈ raw, r.logo = x.logo ∧ r.stop = x.stop)) ?_ _ [] (by simp) ?_ seg hseg
  · rintro a b ⟨ha1, ha2⟩ ⟨hb1, hb2⟩ hlogo
    refine ⟨ha1, ?_⟩
    rcases max_choice a.stop b.stop with hm | hm
    · rw [show ({ a with stop := max a.stop b.stop } : Segment).stop = max a.stop b.stop
        from rfl, hm]
      exact ha2
    · rw [show ({ a with stop := max a.stop b.stop } : Segment).stop = max a.stop b.stop
        from rfl, hm]
      obtain ⟨r, hr, hrl, hrs⟩ := hb2
      exact ⟨r, hr, by rw [hrl, hlogo], hrs⟩
  · intro x hx
    have hxr : x ∈ raw := sortByStart_mem.mp hx
    exact ⟨⟨x, hxr, rfl, rfl⟩, ⟨x, hxr, rfl, rfl⟩⟩

theorem mergeSegments_le (fps mergeGapSec : ℚ) (raw : List Segment)
    (h : ∀ r ∈ raw, r.start ≤ r.stop) :
    ∀ seg ∈ mergeSegments fps mergeGapSec raw, seg.start ≤ seg.stop := by
  intro seg hseg
  unfold mergeSegments at hseg
  rw [List.mem_reverse] at hseg
  refine foldl_mergeAcc_pred fps mergeGapSec (fun x => x.start ≤ x.stop) ?_ _ [] (by simp)
    ?_ seg hseg
  · intro a b ha _ _
    exact le_trans ha (le_max_left _ _)
  · intro x hx
    exact h x (sortByStart_mem.mp hx)

theorem mergeSegments_chain (fps mergeGapSec : ℚ) (raw : List Segment) :
    (mergeSegments fps mergeGapSec raw).Chain'
      (fun a b => mergeCond fps mergeGapSec a b = false) := by
  unfold mergeSegments
  rw [List.chain'_reverse]
  exact foldl_mergeAcc_chain fps mergeGapSec _ [] (by simp)

theorem mergeSegments_of_sorted_chain (fps mergeGapSec : ℚ) (l : List Segment)
    (hs : l.Pairwise (fun a b => a.start ≤ b.start))
    (hc : l.Chain' (fun a b => mergeCond fps mergeGapSec a b = false)) :
    mergeSegments fps mergeGapSec l = l := by
  unfold mergeSegments
  rw [List.mergeSort_of_sorted (hs.imp (fun hab => by simpa using hab))]
  cases l with
  | nil =>
    simp
  | cons o l =>
    simp only [List.foldl_cons]
    rw [show mergeAcc fps mergeGapSec [] o = [o] from rfl,
      foldl_mergeAcc_pushes fps mergeGapSec l o [] hc]
    simp

/-- C1: the merge phase is idempotent — running `mergeAndFilterSegments`'s merge
step on its own output returns that output unchanged, for every input list of
raw segments and every fps and mergeGapSeconds. -/
theorem mergeSegments_idempotent (fps mergeGapSec : ℚ) (raw : List Segment) :
    mergeSegments fps mergeGapSec (mergeSegments fps mergeGapSec raw) =
      mergeSegments fps mergeGapSec raw :=
  mergeSegments_of_sorted_chain fps mergeGapSec _
    (mergeSegments_sorted fps mergeGapSec raw)
    (mergeSegments_chain fps mergeGapSec raw)

/-- C9: the merged (and filtered) output is sorted by `start` in non-decreasing
order, and every output segment takes its `start` from an input segment of its
brand, its `stop` from an input segment of its brand, and hence its brand from
an input segment. -/
theorem mergeAndFilter_sorted_prov (fps mergeGapSec minDurationSec : ℚ)
    (raw : List Segment) :
    (mergeAndFilterSegments fps mergeGapSec minDurationSec raw).Pairwise
      (fun a b => a.start ≤ b.start) ∧
    ∀ seg ∈ mergeAndFilterSegments fps mergeGapSec minDurationSec raw,
      (∃ r ∈ raw, r.logo = seg.logo ∧ r.start = seg.start) ∧
      (∃ r ∈ raw, r.logo = seg.logo ∧ r.stop = seg.stop) := by
  constructor
  · unfold mergeAndFilterSegments
    exact (mergeSegments_sorted fps mergeGapSec raw).filter _
  · intro seg hseg
    exact mergeSegments_prov fps mergeGapSec raw seg (List.mem_of_mem_filter hseg)

theorem mergeAndFilter_sorted_prov_witness :
    (∃ r ∈ [(⟨"a", 0, 2⟩ : Segment)], r.logo = (⟨"a", 0, 2⟩ : Segment).logo ∧
      r.start = (⟨"a", 0, 2⟩ : Segment).start) ∧
    (∃ r ∈ [(⟨"a", 0, 2⟩ : Segment)], r.logo = (⟨"a", 0, 2⟩ : Segment).logo ∧
      r.stop = (⟨"a", 0, 2⟩ : Segment).stop) := by
  have h := mergeAndFilter_sorted_prov 25 1 0 [⟨"a", 0, 2⟩]
  refine h.2 ⟨"a", 0, 2⟩ ?_
  norm_num [mergeAndFilterSegments, mergeSegments, mergeAcc, mergeCond,
    List.mergeSort, List.merge]

/-- C5: for every input series, thresholds, and positive fps, every segment in
the final filtered output has `start ≤ stop` and duration
`(stop - start + 1) / fps` at least `minDurationSec`. -/
theorem pipeline_output_invariants (logos : List String) (timelineStats : String → List ℕ)
    (covData promData : String → List ℚ)
    (minCov minProm fps mergeGapSec minDurationSec : ℚ) (_hfps : 0 < fps) :
    ∀ seg ∈ segmentFilterResults logos timelineStats covData promData
        minCov minProm fps mergeGapSec minDurationSec,
      seg.start ≤ seg.stop ∧
        minDurationSec ≤ ((seg.stop : ℚ) - (seg.start : ℚ) + 1) / fps := by
  intro seg hseg
  unfold segmentFilterResults mergeAndFilterSegments at hseg
  constructor
  · refine mergeSegments_le fps mergeGapSec _ ?_ seg (List.mem_of_mem_filter hseg)
    intro r hr
    unfold findRawSegments at hr
    rw [List.mem_flatMap] at hr
    obtain ⟨logo, -, hr⟩ := hr
    rw [findRawSegmentsFor_mem] at hr
    exact hr.2.1
  · have h := List.of_mem_filter hseg
    simpa using h

theorem pipeline_output_invariants_witness :
    (0 : ℚ) < 25 ∧
      ((⟨"a", 0, 9⟩ : Segment).start ≤ (⟨"a", 0, 9⟩ : Segment).stop ∧
        (0 : ℚ) ≤ (((⟨"a", 0, 9⟩ : Segment).stop : ℚ) -
          ((⟨"a", 0, 9⟩ : Segment).start : ℚ) + 1) / 25) := by
  refine ⟨by norm_num, ?_⟩
  refine pipeline_output_invariants ["a"] (fun _ => []) (fun _ => scenarioCoverage)
    (fun _ => []) 1 0 25 1 0 (by norm_num) ⟨"a", 0, 9⟩ ?_
  norm_num [segmentFilterResults, findRawSegments, findRawSegmentsFor, scanRun, qualifies,
    scenarioCoverage, mergeAndFilterSegments, mergeSegments, mergeAcc, mergeCond,
    List.mergeSort, List.merge]

/-- C3: after sorting, a segment merges into the accumulator tail (extending its
stop to the max of the two, pushing nothing) iff it has the tail's brand and the
clamped gap in seconds is at most mergeGapSeconds; otherwise it is pushed.  In
particular two brands with overlapping qualifying frames `[0-4]` and `[2-6]`
(Scenario C) yield two separate output segments, never one. -/
theorem mergeStep_iff (fps mergeGapSec : ℚ) (last seg : Segment) (rest : List Segment) :
    (seg.logo = last.logo ∧
        max 0 ((seg.start : ℚ) - ((last.stop : ℚ) + 1)) / fps ≤ mergeGapSec →
      mergeAcc fps mergeGapSec (last :: rest) seg =
        { last with stop := max last.stop seg.stop } :: rest) ∧
    (¬(seg.logo = last.logo ∧
        max 0 ((seg.start : ℚ) - ((last.stop : ℚ) + 1)) / fps ≤ mergeGapSec) →
      mergeAcc fps mergeGapSec (last :: rest) seg = seg :: last :: rest) ∧
    mergeSegments 25 1 [⟨"a", 0, 4⟩, ⟨"b", 2, 6⟩] = [⟨"a", 0, 4⟩, ⟨"b", 2, 6⟩] := by
  have hbridge : mergeCond fps mergeGapSec last seg = true ↔
      (seg.logo = last.logo ∧
        max 0 ((seg.start : ℚ) - ((last.stop : ℚ) + 1)) / fps ≤ mergeGapSec) := by
    simp [mergeCond]
  refine ⟨?_, ?_, ?_⟩
  · intro h
    simp only [mergeAcc]
    rw [if_pos (hbridge.mpr h)]
  · intro h
    simp only [mergeAcc]
    rw [if_neg (fun hc => h (hbridge.mp hc))]
  · have hba : ("b" : String) ≠ "a" := by decide
    norm_num [mergeSegments, mergeAcc, mergeCond, List.mergeSort, List.merge, hba]

theorem mergeStep_iff_witness :
    ((⟨"a", 5, 9⟩ : Segment).logo = (⟨"a", 0, 2⟩ : Segment).logo ∧
      max 0 (((⟨"a", 5, 9⟩ : Segment).start : ℚ) -
        (((⟨"a", 0, 2⟩ : Segment).stop : ℚ) + 1)) / 25 ≤ 1) ∧
    mergeAcc 25 1 [⟨"a", 0, 2⟩] ⟨"a", 5, 9⟩ =
      [{ (⟨"a", 0, 2⟩ : Segment) with
          stop := max (⟨"a", 0, 2⟩ : Segment).stop (⟨"a", 5, 9⟩ : Segment).stop }] := by
  have hcond : (⟨"a", 5, 9⟩ : Segment).logo = (⟨"a", 0, 2⟩ : Segment).logo ∧
      max 0 (((⟨"a", 5, 9⟩ : Segment).start : ℚ) -
        (((⟨"a", 0, 2⟩ : Segment).stop : ℚ) + 1)) / 25 ≤ 1 := ⟨rfl, by norm_num⟩
  exact ⟨hcond, (mergeStep_iff 25 1 ⟨"a", 0, 2⟩ ⟨"a", 5, 9⟩ []).1 hcond⟩

/-- C10: the merge compares each segment only against the current accumulator
tail, so a long brand-A segment followed (in start order) by a brand-B segment
and then a short brand-A segment nested inside the first yields both A segments
in the output: output segments of one brand are not pairwise disjoint. -/
theorem merged_overlap_same_brand :
    mergeAndFilterSegments 25 1 0 [⟨"A", 0, 10⟩, ⟨"B", 1, 2⟩, ⟨"A", 3, 4⟩] =
      [⟨"A", 0, 10⟩, ⟨"B", 1, 2⟩, ⟨"A", 3, 4⟩] ∧
    ∃ s1 ∈ mergeAndFilterSegments 25 1 0 [⟨"A", 0, 10⟩, ⟨"B", 1, 2⟩, ⟨"A", 3, 4⟩],
      ∃ s2 ∈ mergeAndFilterSegments 25 1 0 [⟨"A", 0, 10⟩, ⟨"B", 1, 2⟩, ⟨"A", 3, 4⟩],
        s1 ≠ s2 ∧ s1.logo = s2.logo ∧ s2.start ≤ s1.stop ∧ s1.start ≤ s2.stop := by
  have heq : mergeAndFilterSegments 25 1 0 [⟨"A", 0, 10⟩, ⟨"B", 1, 2⟩, ⟨"A", 3, 4⟩] =
      [⟨"A", 0, 10⟩, ⟨"B", 1, 2⟩, ⟨"A", 3, 4⟩] := by
    have hba : ("B" : String) ≠ "A" := by decide
    have hab : ("A" : String) ≠ "B" := by decide
    norm_num [mergeAndFilterSegments, mergeSegments, mergeAcc, mergeCond,
      List.mergeSort, List.merge, hba, hab]
  refine ⟨heq, ?_⟩
  rw [heq]
  refine ⟨⟨"A", 0, 10⟩, by simp, ⟨"A", 3, 4⟩, by simp, by decide, rfl, by decide, by decide⟩

/-- C4: Scenario A/B of the spec: fps 25, coverage `[5,5,5,0,0,5,5,5,5,5]`,
minCoverage 1, minProminence 0, empty prominence series and presence set,
mergeGapSeconds 1: the raw segments are `[0-2]` and `[5-9]`, the 2-frame gap is
0.08 s so they merge to `[0-9]` of duration 0.4 s; with minDurationSeconds 1 the
final output is empty, and with minDurationSeconds 0 it is that one segment,
whose endpoints format to `0.00` and `0.36` seconds. -/
theorem scenario_a_b :
    findRawSegments ["a"] (fun _ => []) (fun _ => scenarioCoverage) (fun _ => []) 1 0 =
      [⟨"a", 0, 2⟩, ⟨"a", 5, 9⟩] ∧
    mergeSegments 25 1 [⟨"a", 0, 2⟩, ⟨"a", 5, 9⟩] = [⟨"a", 0, 9⟩] ∧
    max 0 (((⟨"a", 5, 9⟩ : Segment).start : ℚ) -
      (((⟨"a", 0, 2⟩ : Segment).stop : ℚ) + 1)) / 25 = 0.08 ∧
    (((⟨"a", 0, 9⟩ : Segment).stop : ℚ) - ((⟨"a", 0, 9⟩ : Segment).start : ℚ) + 1) / 25
      = 0.4 ∧
    segmentFilterResults ["a"] (fun _ => []) (fun _ => scenarioCoverage) (fun _ => [])
      1 0 25 1 1 = [] ∧
    segmentFilterResults ["a"] (fun _ => []) (fun _ => scenarioCoverage) (fun _ => [])
      1 0 25 1 0 = [⟨"a", 0, 9⟩] ∧
    toFixed2 (toTime 25 0) = "0.00" ∧
    toFixed2 (toTime 25 9) = "0.36" := by
  refine ⟨?_, ?_, by norm_num, by norm_num, ?_, ?_, ?_, ?_⟩
  · norm_num [findRawSegments, findRawSegmentsFor, scanRun, qualifies, scenarioCoverage]
  · norm_num [mergeSegments, mergeAcc, mergeCond, List.mergeSort, List.merge]
  · norm_num [segmentFilterResults, findRawSegments, findRawSegmentsFor, scanRun, qualifies,
      scenarioCoverage, mergeAndFilterSegments, mergeSegments, mergeAcc, mergeCond,
      List.mergeSort, List.merge]
  · norm_num [segmentFilterResults, findRawSegments, findRawSegmentsFor, scanRun, qualifies,
      scenarioCoverage, mergeAndFilterSegments, mergeSegments, mergeAcc, mergeCond,
      List.mergeSort, List.merge]
  · norm_num [toFixed2, toTime]
    decide
  · norm_num [toFixed2, toTime]
    decide

end SponsorSpotlight
